import Mathlib

/-!
Verification of the ZoomVideoComposer core against its specification.

The definitions below are a shallow embedding of the Python sources
(`zoom_video_composer.py`, `helpers.py`, `helper.py`,
`zoom_video_composer_ui.py`): pure numeric code is translated to Lean
functions over `ℕ`/`ℤ`/`ℚ`/`ℝ` (Python `int()` truncation of a
non-negative value becomes a floor), the fallible per-frame routine
becomes an `Except`-valued function, and the image-blending loop is
modelled over a symbolic image algebra that records which buffer each
geometric operation consumed.
-/

namespace ZVC

/-! ## Geometric image operations (`helpers.py` lines 35-43, `zoom_video_composer.py` lines 72-81) -/

/-- `zoom_size` of `ImageWrapper.zoom_crop` (`helpers.py` line 36):
`int(self.width * zoom)` for one dimension; the value is non-negative for
`zoom ≥ 0`, so Python's truncation toward zero is a floor. -/
def zoomSize (w : ℕ) (zoom : ℚ) : ℕ :=
  (⌊(w : ℚ) * zoom⌋).toNat

/-- First (and second) crop-box coordinate of `zoom_crop`
(`helpers.py` lines 38-39): `int((zoom_size - width) / 2)`. -/
def cropBoxLo (w : ℕ) (zoom : ℚ) : ℤ :=
  ((zoomSize w zoom : ℤ) - (w : ℤ)) / 2

/-- Third (and fourth) crop-box coordinate of `zoom_crop`
(`helpers.py` lines 40-41): `int((zoom_size + width) / 2)`. -/
def cropBoxHi (w : ℕ) (zoom : ℚ) : ℤ :=
  ((zoomSize w zoom : ℤ) + (w : ℤ)) / 2

/-! ## Direction / reverse adjustment (`helpers.py` lines 270-275) -/

/-- `images_reverse` (`helpers.py` lines 270-275): reverse once when the
direction is `out` or `outin`, and once more when `reverse_images` is set. -/
def images_reverse {α : Type} (images : List α) (direction : String) (reverse_images : Bool) : List α :=
  let images1 := if direction = ("out") ∨ direction = ("outin") then images.reverse else images
  if reverse_images then images1.reverse else images1

/-! ## Worker-pool sizing (`zoom_video_composer.py` line 407) -/

/-- `n_jobs = threads if threads > 0 else cpu_count() - threads`
(`zoom_video_composer.py` line 407). -/
def nJobs (cpuCount threads : ℤ) : ℤ :=
  if threads > 0 then threads else cpuCount - threads

/-- Pool size documented by the CLI help text (`zoom_video_composer.py`
line 170: "Use values <= 0 for number of available threads on your machine
minus the provided absolute value"): hardware concurrency minus `|threads|`. -/
def nJobsDocumented (cpuCount threads : ℤ) : ℤ :=
  if threads > 0 then threads else cpuCount - |threads|

/-! ## Content-addressed temp directory (`zoom_video_composer.py` lines 298-300) -/

/-- Render-job parameters of `zoom_video_composer`
(`zoom_video_composer.py` lines 241-259); floats are modelled as rationals. -/
structure RenderParams where
  zoom : ℚ
  duration : ℚ
  easing : String
  direction : String
  fps : ℕ
  width : ℚ
  height : ℚ
  margin : ℚ
deriving DecidableEq

/-- The string digested for the temp-directory name
(`zoom_video_composer.py` lines 298-300):
`md5("".join(image_paths).encode("utf-8"))` — the digest input is the plain
concatenation of the resolved image paths; the render parameters are not
part of it. -/
def tmpDirDigestInput (_params : RenderParams) (image_paths : List String) : String :=
  String.join image_paths

/-! ## Frame scheduling (`zoom_video_composer.py` lines 410-417) -/

/-- Frame indices submitted to the `ThreadPoolExecutor`
(`zoom_video_composer.py` line 411):
`[executor.submit(process_frame, i) for i in range(num_frames)]` —
every index in `0..num_frames-1` is submitted; the surrounding code contains
no scan of the target directory for already-existing frame files. -/
def scheduledFrames (num_frames : ℕ) : List ℕ :=
  List.range num_frames

/-! ## The margin-blend pass over a symbolic image algebra
(`zoom_video_composer.py` lines 320-334, `helpers.py` lines 278-289) -/

/-- Symbolic image terms: an original input image, a margin crop of an
image (`inner_image.crop((margin, margin, w - margin, h - margin))`), a
zoom-crop of an image by the fixed zoom ratio (`zoom_crop(outer, zoom)`),
and a paste of the second image onto the first at the margin offset. -/
inductive Img where
  | orig : ℕ → Img
  | cropMargin : Img → Img
  | zoomCrop : Img → Img
  | pasteAtMargin : Img → Img → Img
deriving DecidableEq

/-- One blend of an outer image with an inner image
(`zoom_video_composer.py` lines 321-334): zoom-crop the outer image by the
zoom ratio, then paste the margin-cropped inner image at `(margin, margin)`. -/
def blend (outer inner : Img) : Img :=
  Img.pasteAtMargin (Img.zoomCrop outer) (Img.cropMargin inner)

/-- One iteration of the margin-blend loop at index `i`
(`zoom_video_composer.py` lines 320-334): read `images[i]` as inner and
`images[i-1]` as outer from the current state of the list, blend them, and
store the result back at index `i`. -/
def blendStep (images : List Img) (i : ℕ) : List Img :=
  images.set i (blend (images.getD (i - 1) (Img.orig 0)) (images.getD i (Img.orig 0)))

/-- The whole margin-blend pass (`zoom_video_composer.py` line 320):
`for i in trange(1, num_images + 1)` with `num_images = len(images) - 1`,
i.e. the loop body runs for `i = 1, …, len(images) - 1` in ascending order
over the mutable list. -/
def blendPass (images : List Img) : List Img :=
  (List.range' 1 (images.length - 1)).foldl blendStep images

/-- The cascade the ascending in-place loop actually produces: index `i`
holds the original image 0 blended through all images up to `i`. -/
def blendAcc (images : List Img) : ℕ → Img
  | 0 => images.getD 0 (Img.orig 0)
  | i + 1 => blend (blendAcc images i) (images.getD (i + 1) (Img.orig 0))

/-! ## Easing library (`helpers.py` lines 101-151) -/

/-- `get_ease_pow_in` (`helpers.py` lines 104-105): `lambda x: pow(x, power)`. -/
noncomputable def ease_pow_in (power : ℝ) : ℝ → ℝ :=
  fun x => x ^ power

/-- `get_ease_pow_out` (`helpers.py` lines 108-109): `lambda x: 1 - pow(1 - x, power)`. -/
noncomputable def ease_pow_out (power : ℝ) : ℝ → ℝ :=
  fun x => 1 - (1 - x) ^ power

/-- `get_ease_pow_in_out` (`helpers.py` lines 112-117):
`pow(2, power - 1) * pow(x, power)` below one half, else
`1 - pow(-2 * x + 2, power) / 2`. -/
noncomputable def ease_pow_in_out (power : ℝ) : ℝ → ℝ :=
  fun x => if x < 1 / 2 then (2 : ℝ) ^ (power - 1) * x ^ power
    else 1 - (-2 * x + 2) ^ power / 2

/-- `get_linear_with_in_out_ease` (`helpers.py` lines 123-133): quadratic
ramps of width `ease_duration` at both ends around a linear middle. -/
noncomputable def linear_with_in_out_ease (ease_duration : ℝ) : ℝ → ℝ :=
  fun x =>
    let ease_duration_scale := 1 / ease_duration
    if x < ease_duration then
      (x * ease_duration_scale) ^ 2 / ease_duration_scale / 2
    else if x > 1 - ease_duration then
      1 - ((1 - x) * ease_duration_scale) ^ 2 / ease_duration_scale / 2
    else
      (x - ease_duration) * (1 - ease_duration) / (1 - 2 * ease_duration) + ease_duration / 2

/-- `easeInSine` (`helpers.py` line 139): `1 - cos((x * pi) / 2)`. -/
noncomputable def easeInSine : ℝ → ℝ :=
  fun x => 1 - Real.cos (x * Real.pi / 2)

/-- `easeOutSine` (`helpers.py` line 140): `sin((x * pi) / 2)`. -/
noncomputable def easeOutSine : ℝ → ℝ :=
  fun x => Real.sin (x * Real.pi / 2)

/-- `easeInOutSine` (`helpers.py` line 141): `-(cos(pi * x) - 1) / 2`. -/
noncomputable def easeInOutSine : ℝ → ℝ :=
  fun x => -(Real.cos (Real.pi * x) - 1) / 2

/-- The keys of the `EASING_FUNCTIONS` table (`helpers.py` lines 136-151). -/
inductive EasingKind where
  | linear
  | linearWithInOutEase
  | easeInSine
  | easeOutSine
  | easeInOutSine
  | easeInQuad
  | easeOutQuad
  | easeInOutQuad
  | easeInCubic
  | easeOutCubic
  | easeInOutCubic
  | easeInPow
  | easeOutPow
  | easeInOutPow
deriving DecidableEq

/-- The `EASING_FUNCTIONS` table (`helpers.py` lines 136-151) together
with the parameter application done by `get_easing_function`
(`helpers.py` lines 156-162): the quad/cubic entries are the power family
at exponents 2 and 3, and the `Pow` entries take the configured power. -/
noncomputable def easingFunction (k : EasingKind) (power ease_duration : ℝ) : ℝ → ℝ :=
  match k with
  | EasingKind.linear => fun x => x
  | EasingKind.linearWithInOutEase => linear_with_in_out_ease ease_duration
  | EasingKind.easeInSine => easeInSine
  | EasingKind.easeOutSine => easeOutSine
  | EasingKind.easeInOutSine => easeInOutSine
  | EasingKind.easeInQuad => ease_pow_in 2
  | EasingKind.easeOutQuad => ease_pow_out 2
  | EasingKind.easeInOutQuad => ease_pow_in_out 2
  | EasingKind.easeInCubic => ease_pow_in 3
  | EasingKind.easeOutCubic => ease_pow_out 3
  | EasingKind.easeInOutCubic => ease_pow_in_out 3
  | EasingKind.easeInPow => ease_pow_in power
  | EasingKind.easeOutPow => ease_pow_out power
  | EasingKind.easeInOutPow => ease_pow_in_out power

/-- Validity of the easing parameters for a given kind: a positive
exponent for the power family, and an ease-duration fraction strictly
between 0 and 1/2 for the linear-with-eased-ends variant. -/
def easingParamsOk : EasingKind → ℝ → ℝ → Prop
  | EasingKind.easeInPow, power, _ => 0 < power
  | EasingKind.easeOutPow, power, _ => 0 < power
  | EasingKind.easeInOutPow, power, _ => 0 < power
  | EasingKind.linearWithInOutEase, _, d => 0 < d ∧ d < 1 / 2
  | _, _, _ => True

/-- The easing contract of the spec: fixes both endpoints, maps `[0,1]`
into `[0,1]`, and is monotone non-decreasing on `[0,1]`. -/
def easeWellBehaved (f : ℝ → ℝ) : Prop :=
  f 0 = 0 ∧ f 1 = 1 ∧ (∀ x : ℝ, 0 ≤ x → x ≤ 1 → 0 ≤ f x ∧ f x ≤ 1) ∧
  (∀ x y : ℝ, 0 ≤ x → x ≤ y → y ≤ 1 → f x ≤ f y)

/-! ## Frame sampler (`helpers.py` lines 206-220 and 309-355,
`zoom_video_composer.py` lines 367-405) -/

/-- `zoom_in_log` (`helpers.py` lines 207-208):
`easing_func(i / (num_frames - 1)) * num_images`. -/
noncomputable def zoom_in_log (easing_func : ℝ → ℝ) (i num_frames num_images : ℕ) : ℝ :=
  easing_func ((i : ℝ) / ((num_frames : ℝ) - 1)) * num_images

/-- `zoom_out_log` (`helpers.py` lines 211-212):
`(1 - easing_func(i / (num_frames - 1))) * num_images`. -/
noncomputable def zoom_out_log (easing_func : ℝ → ℝ) (i num_frames num_images : ℕ) : ℝ :=
  (1 - easing_func ((i : ℝ) / ((num_frames : ℝ) - 1))) * num_images

/-- The direction dispatch of `process_frame` (`helpers.py` lines
323-342): the selected continuous zoom log, or the `ValueError` raised
for an unsupported direction name. -/
noncomputable def current_zoom_log (direction : String) (easing_func : ℝ → ℝ)
    (i num_frames num_frames_half num_images : ℕ) : Except String ℝ :=
  if direction = ("in") then
    Except.ok (zoom_in_log easing_func i num_frames num_images)
  else if direction = ("out") then
    Except.ok (zoom_out_log easing_func i num_frames num_images)
  else if direction = ("inout") then
    Except.ok (if i < num_frames_half then
        zoom_in_log easing_func i num_frames_half num_images
      else zoom_out_log easing_func (i - num_frames_half) num_frames_half num_images)
  else if direction = ("outin") then
    Except.ok (if i < num_frames_half then
        zoom_out_log easing_func i num_frames_half num_images
      else zoom_in_log easing_func (i - num_frames_half) num_frames_half num_images)
  else Except.error (("Unsupported direction: ") ++ direction)

/-- The same dispatch as a total function on the four supported
directions (its value on other strings is irrelevant and set to 0);
convenient for stating properties of the sampled sequence. -/
noncomputable def zoomLogPure (direction : String) (easing_func : ℝ → ℝ)
    (i num_frames num_frames_half num_images : ℕ) : ℝ :=
  if direction = ("in") then zoom_in_log easing_func i num_frames num_images
  else if direction = ("out") then zoom_out_log easing_func i num_frames num_images
  else if direction = ("inout") then
    (if i < num_frames_half then zoom_in_log easing_func i num_frames_half num_images
     else zoom_out_log easing_func (i - num_frames_half) num_frames_half num_images)
  else if direction = ("outin") then
    (if i < num_frames_half then zoom_out_log easing_func i num_frames_half num_images
     else zoom_in_log easing_func (i - num_frames_half) num_frames_half num_images)
  else 0

/-- `current_image_idx = ceil(current_zoom_log)`
(`helpers.py` line 344). -/
noncomputable def layerIndex (L : ℝ) : ℤ :=
  ⌈L⌉

/-- `local_zoom = zoom ** (current_zoom_log - current_image_idx + 1)`
(`helpers.py` line 345). -/
noncomputable def localZoom (zoom L : ℝ) : ℝ :=
  zoom ^ (L - (⌈L⌉ : ℝ) + 1)

/-- The whole fallible part of `process_frame` (`helpers.py` lines
309-355): the direction dispatch followed by the layer-index and
local-zoom computation; on success the frame file for index `i` is
written, on an unsupported direction the `ValueError` propagates before
any write. -/
noncomputable def process_frame (direction : String) (easing_func : ℝ → ℝ) (zoom : ℝ)
    (i num_frames num_frames_half num_images : ℕ) : Except String (ℤ × ℝ) :=
  match current_zoom_log direction easing_func i num_frames num_frames_half num_images with
  | Except.error e => Except.error e
  | Except.ok L => Except.ok (layerIndex L, localZoom zoom L)

/-- The indices whose frame files get written during the render phase:
those for which `process_frame` completes instead of raising. -/
noncomputable def frameWrites (direction : String) (easing_func : ℝ → ℝ) (zoom : ℝ)
    (num_frames num_frames_half num_images : ℕ) : List ℕ :=
  (List.range num_frames).filterMap (fun i =>
    match process_frame direction easing_func zoom i num_frames num_frames_half num_images with
    | Except.ok _ => some i
    | Except.error _ => none)

end ZVC

namespace ZVC

/-! ## Theorems -/

/-- Helper: under `1 ≤ zoom` the scaled size is at least the original size. -/
theorem le_zoomSize (w : ℕ) (zoom : ℚ) (hz : 1 ≤ zoom) : (w : ℤ) ≤ (zoomSize w zoom : ℤ) := by
  have hq : (w : ℚ) ≤ (w : ℚ) * zoom :=
    le_mul_of_one_le_right (by positivity) hz
  have hf : (w : ℤ) ≤ ⌊(w : ℚ) * zoom⌋ := by
    have := Int.le_floor.mpr hq
    simpa using this
  have : (w : ℤ) ≤ (⌊(w : ℚ) * zoom⌋).toNat := le_trans hf (Int.self_le_toNat _)
  simpa [zoomSize] using this

/-- C9: `zoom_crop` preserves image dimensions — for every integer
dimension `w ≥ 1` (the same formula serves width and height) and every
zoom factor `z ≥ 1`, the crop-box bounds `int((zw - w)/2)` and
`int((zw + w)/2)` computed from the scaled size `int(w*z)` differ by
exactly `w`, and the upper bound stays within the resized image, so the
buffer returned by `zoom_crop` has exactly the input's width and height. -/
theorem zoom_crop_preserves_dimensions (w h : ℕ) (zoom : ℚ)
    (_hw : 1 ≤ w) (_hh : 1 ≤ h) (hz : 1 ≤ zoom) :
    cropBoxHi w zoom - cropBoxLo w zoom = w ∧
    cropBoxHi w zoom ≤ (zoomSize w zoom : ℤ) ∧
    cropBoxHi h zoom - cropBoxLo h zoom = h ∧
    cropBoxHi h zoom ≤ (zoomSize h zoom : ℤ) := by
  have hZw := le_zoomSize w zoom hz
  have hZh := le_zoomSize h zoom hz
  unfold cropBoxHi cropBoxLo
  refine ⟨?_, ?_, ?_, ?_⟩ <;> omega

/-- Witness for C9 at `w = 3`, `h = 2`, `zoom = 3/2`. -/
theorem zoom_crop_preserves_dimensions_witness :
    (1 ≤ 3 ∧ 1 ≤ 2 ∧ (1 : ℚ) ≤ 3 / 2) ∧
    (cropBoxHi 3 (3 / 2) - cropBoxLo 3 (3 / 2) = 3 ∧
     cropBoxHi 3 (3 / 2) ≤ (zoomSize 3 (3 / 2) : ℤ) ∧
     cropBoxHi 2 (3 / 2) - cropBoxLo 2 (3 / 2) = 2 ∧
     cropBoxHi 2 (3 / 2) ≤ (zoomSize 2 (3 / 2) : ℤ)) :=
  ⟨⟨by decide, by decide, by norm_num⟩,
   zoom_crop_preserves_dimensions 3 2 (3 / 2) (by decide) (by decide) (by norm_num)⟩

/-- C10: the direction/reverse ordering adjustment is a pair of cancelling
involutions — `images_reverse` returns the reversed list when exactly one
of (direction ∈ {out, outin}) and (reverse_images = true) holds, and the
list in its original order when both hold or neither holds. -/
theorem images_reverse_xor {α : Type} (l : List α) (d : String) (r : Bool) :
    images_reverse l d r =
      if ((d = ("out") ∨ d = ("outin")) ↔ r = true) then l else l.reverse := by
  unfold images_reverse
  by_cases hd : d = ("out") ∨ d = ("outin") <;> cases r <;>
    simp [hd, List.reverse_reverse]

/-- C8 (code bug record): at `cpu_count() = 8` and `threads = -1` (the
CLI default), the code's pool size `cpu_count() - threads` evaluates to 9,
while the documented "available hardware concurrency minus the absolute
value of the configured count" is 7. -/
theorem nJobs_disagrees_with_documentation :
    nJobs 8 (-1) = 9 ∧ nJobsDocumented 8 (-1) = 7 ∧
    nJobs 8 (-1) ≠ nJobsDocumented 8 (-1) := by
  decide

/-- Counterexample for C3: two parameter sets that differ in the zoom
ratio (2 vs 3) over the same image path list produce the same digest
input — therefore the same MD5 hash and the same temp-directory path. -/
theorem tmpDirDigestInput_ignores_zoom :
    tmpDirDigestInput ⟨2, 10, ("easeInOutSine"), ("out"), 30, 1, 1, 1 / 20⟩
        [("a.png"), ("b.png")] =
      tmpDirDigestInput ⟨3, 10, ("easeInOutSine"), ("out"), 30, 1, 1, 1 / 20⟩
        [("a.png"), ("b.png")] ∧
    (2 : ℚ) ≠ (3 : ℚ) := by
  exact ⟨rfl, by norm_num⟩

/-- C3 (amended): the temp-directory digest input is the concatenation of
the resolved image paths only; it is invariant under every change of the
render parameters, so two jobs over the same image path list share the
temp-directory path no matter how their parameters differ. -/
theorem tmpDirDigestInput_param_independent (p q : RenderParams) (paths : List String) :
    tmpDirDigestInput p paths = tmpDirDigestInput q paths :=
  rfl

/-- Counterexample for C6: with 3 frames to render and frames 0 and 1
already present on disk, a prefix-scanning renderer would schedule only
frame 2; the code schedules every index 0, 1, 2. -/
theorem scheduledFrames_no_resume :
    scheduledFrames 3 = [0, 1, 2] ∧ scheduledFrames 3 ≠ [2] := by
  decide

/-- C6 (amended): the renderer performs no directory scan before
scheduling — every frame index in `[0, F)` is scheduled (and its file
re-rendered and overwritten), including any contiguous run of frames that
already exists on disk. -/
theorem scheduledFrames_complete (F : ℕ) (i : ℕ) :
    i ∈ scheduledFrames F ↔ i < F := by
  simp [scheduledFrames]

/-- Helper: state of the mutable image list after the first `n`
iterations of the margin-blend loop — indices up to `n` hold the cascaded
blend, indices beyond `n` still hold the original images. -/
theorem blendSteps_invariant (images : List Img) (n : ℕ) (hn : n + 1 ≤ images.length) :
    ((List.range' 1 n).foldl blendStep images).length = images.length ∧
    (∀ j, j ≤ n →
      ((List.range' 1 n).foldl blendStep images).getD j (Img.orig 0) = blendAcc images j) ∧
    (∀ j, n < j →
      ((List.range' 1 n).foldl blendStep images).getD j (Img.orig 0) =
        images.getD j (Img.orig 0)) := by
  induction n with
  | zero =>
    refine ⟨rfl, ?_, fun j _ => rfl⟩
    intro j hj
    interval_cases j
    rfl
  | succ n ih =>
    have hn1 : n + 1 ≤ images.length := Nat.le_of_succ_le hn
    obtain ⟨hlen, hle, hgt⟩ := ih hn1
    rw [List.range'_concat, List.foldl_append]
    simp only [List.foldl_cons, List.foldl_nil]
    have hidx : 1 + 1 * n = n + 1 := by omega
    rw [hidx]
    have hstep : blendStep ((List.range' 1 n).foldl blendStep images) (n + 1) =
        ((List.range' 1 n).foldl blendStep images).set (n + 1)
          (blend (((List.range' 1 n).foldl blendStep images).getD n (Img.orig 0))
            (((List.range' 1 n).foldl blendStep images).getD (n + 1) (Img.orig 0))) := rfl
    rw [hstep, hle n (Nat.le_refl n), hgt (n + 1) (Nat.lt_succ_self n)]
    have hvlt : n + 1 < ((List.range' 1 n).foldl blendStep images).length := by
      rw [hlen]; omega
    refine ⟨by rw [List.length_set, hlen], ?_, ?_⟩
    · intro j hj
      rcases Nat.lt_or_ge j (n + 1) with hjlt | hjge
      · rw [List.getD_eq_getElem?_getD, List.getElem?_set_ne (Nat.ne_of_lt hjlt).symm,
          ← List.getD_eq_getElem?_getD]
        exact hle j (Nat.lt_succ_iff.mp hjlt)
      · have hj1 : j = n + 1 := Nat.le_antisymm hj hjge
        subst hj1
        rw [List.getD_eq_getElem?_getD, List.getElem?_set_eq_of_lt _ hvlt]
        rfl
    · intro j hj
      rw [List.getD_eq_getElem?_getD, List.getElem?_set_ne (Nat.ne_of_lt hj),
        ← List.getD_eq_getElem?_getD]
      exact hgt j (Nat.lt_of_succ_lt hj)

/-- Counterexample for C2: on the three-image list `[orig 0, orig 1,
orig 2]`, the composite stored at index 2 by the ascending margin-blend
pass is `blend (blend (orig 0) (orig 1)) (orig 2)` — its outer input is
the already-blended entry written at step 1, not the original `orig 1` —
so it differs from `blend (orig 1) (orig 2)`. -/
theorem blendPass_outer_not_original :
    (blendPass [Img.orig 0, Img.orig 1, Img.orig 2]).getD 2 (Img.orig 0) =
      blend (blend (Img.orig 0) (Img.orig 1)) (Img.orig 2) ∧
    (blendPass [Img.orig 0, Img.orig 1, Img.orig 2]).getD 2 (Img.orig 0) ≠
      blend (Img.orig 1) (Img.orig 2) := by
  decide

/-- C2 (amended): in the ascending margin-blend pass, the inner image
consumed at step `i` is the original, pre-pass `images[i]`, but the outer
image is the list entry as written by step `i-1`; consequently the
composite stored at index `i` is the left-nested cascade
`blend (blend (… blend (images[0]) (images[1]) …)) (images[i])` rather
than `blend` of the two original neighbours. -/
theorem blendPass_getD (images : List Img) (i : ℕ) (hi : i < images.length) :
    (blendPass images).getD i (Img.orig 0) = blendAcc images i := by
  have hlen : images.length - 1 + 1 ≤ images.length := by omega
  obtain ⟨_, hle, _⟩ := blendSteps_invariant images (images.length - 1) hlen
  exact hle i (by omega)

/-- Witness for C2 on a concrete two-image list at index 1. -/
theorem blendPass_getD_witness :
    1 < ([Img.orig 0, Img.orig 1] : List Img).length ∧
    (blendPass [Img.orig 0, Img.orig 1]).getD 1 (Img.orig 0) =
      blendAcc [Img.orig 0, Img.orig 1] 1 :=
  ⟨by decide, blendPass_getD [Img.orig 0, Img.orig 1] 1 (by decide)⟩

/-- Helper: the identity function satisfies the easing contract. -/
theorem easeWellBehaved_id : easeWellBehaved (fun x : ℝ => x) :=
  ⟨rfl, rfl, fun _ h0 h1 => ⟨h0, h1⟩, fun _ _ _ hxy _ => hxy⟩

/-- Helper: the power ease-in family satisfies the easing contract for
every positive exponent. -/
theorem easeWellBehaved_pow_in (p : ℝ) (hp : 0 < p) : easeWellBehaved (ease_pow_in p) := by
  unfold easeWellBehaved ease_pow_in
  refine ⟨Real.zero_rpow (ne_of_gt hp), Real.one_rpow p, ?_, ?_⟩
  · intro x h0 h1
    exact ⟨Real.rpow_nonneg h0 p, Real.rpow_le_one h0 h1 (le_of_lt hp)⟩
  · intro x y h0 hxy _
    exact Real.rpow_le_rpow h0 hxy (le_of_lt hp)

/-- Helper: the power ease-out family satisfies the easing contract for
every positive exponent. -/
theorem easeWellBehaved_pow_out (p : ℝ) (hp : 0 < p) : easeWellBehaved (ease_pow_out p) := by
  unfold easeWellBehaved ease_pow_out
  refine ⟨?_, ?_, ?_, ?_⟩
  · rw [sub_zero, Real.one_rpow, sub_self]
  · rw [sub_self, Real.zero_rpow (ne_of_gt hp), sub_zero]
  · intro x h0 h1
    have ha : (0 : ℝ) ≤ 1 - x := by linarith
    have hb : 1 - x ≤ 1 := by linarith
    have h01 : 0 ≤ (1 - x) ^ p := Real.rpow_nonneg ha p
    have h11 : (1 - x) ^ p ≤ 1 := Real.rpow_le_one ha hb (le_of_lt hp)
    constructor <;> linarith
  · intro x y h0 hxy hy1
    have ha : (0 : ℝ) ≤ 1 - y := by linarith
    have hmono : (1 - y) ^ p ≤ (1 - x) ^ p :=
      Real.rpow_le_rpow ha (by linarith) (le_of_lt hp)
    linarith

/-- Helper: `2 ^ (p - 1) * (1 / 2) ^ p = 1 / 2` over the reals. -/
theorem two_rpow_half_key (p : ℝ) : (2 : ℝ) ^ (p - 1) * (1 / 2 : ℝ) ^ p = 1 / 2 := by
  rw [one_div, ← Real.rpow_neg_one (2 : ℝ),
    ← Real.rpow_mul (by norm_num : (0 : ℝ) ≤ 2),
    ← Real.rpow_add (by norm_num : (0 : ℝ) < 2)]
  have hexp : p - 1 + -1 * p = -1 := by ring
  rw [hexp, Real.rpow_neg_one]

/-- Helper: the power ease-in-out family satisfies the easing contract
for every positive exponent. -/
theorem easeWellBehaved_pow_in_out (p : ℝ) (hp : 0 < p) :
    easeWellBehaved (ease_pow_in_out p) := by
  have hkey := two_rpow_half_key p
  have h2 : (0 : ℝ) ≤ (2 : ℝ) ^ (p - 1) := Real.rpow_nonneg (by norm_num) _
  have hleft : ∀ x : ℝ, 0 ≤ x → x ≤ 1 / 2 → (2 : ℝ) ^ (p - 1) * x ^ p ≤ 1 / 2 := by
    intro x h0 hhalf
    calc (2 : ℝ) ^ (p - 1) * x ^ p
        ≤ (2 : ℝ) ^ (p - 1) * (1 / 2 : ℝ) ^ p :=
          mul_le_mul_of_nonneg_left (Real.rpow_le_rpow h0 hhalf (le_of_lt hp)) h2
      _ = 1 / 2 := hkey
  have hright : ∀ x : ℝ, 1 / 2 ≤ x → x ≤ 1 →
      1 / 2 ≤ 1 - (-2 * x + 2) ^ p / 2 ∧ 1 - (-2 * x + 2) ^ p / 2 ≤ 1 := by
    intro x hhalf h1
    have hb0 : (0 : ℝ) ≤ -2 * x + 2 := by linarith
    have hb1 : -2 * x + 2 ≤ 1 := by linarith
    have hp0 : 0 ≤ (-2 * x + 2) ^ p := Real.rpow_nonneg hb0 p
    have hp1 : (-2 * x + 2) ^ p ≤ 1 := Real.rpow_le_one hb0 hb1 (le_of_lt hp)
    constructor <;> linarith
  unfold easeWellBehaved ease_pow_in_out
  refine ⟨?_, ?_, ?_, ?_⟩
  · rw [if_pos (by norm_num : (0 : ℝ) < 1 / 2)]
    rw [Real.zero_rpow (ne_of_gt hp), mul_zero]
  · rw [if_neg (by norm_num : ¬ (1 : ℝ) < 1 / 2)]
    have hz : (-2 : ℝ) * 1 + 2 = 0 := by norm_num
    rw [hz, Real.zero_rpow (ne_of_gt hp)]
    norm_num
  · intro x h0 h1
    by_cases hx : x < 1 / 2
    · rw [if_pos hx]
      refine ⟨mul_nonneg h2 (Real.rpow_nonneg h0 p), ?_⟩
      have := hleft x h0 (le_of_lt hx)
      linarith
    · rw [if_neg hx]
      have := hright x (le_of_not_lt hx) h1
      constructor <;> linarith [this.1, this.2]
  · intro x y h0 hxy hy1
    by_cases hx : x < 1 / 2
    · rw [if_pos hx]
      by_cases hy : y < 1 / 2
      · rw [if_pos hy]
        exact mul_le_mul_of_nonneg_left (Real.rpow_le_rpow h0 hxy (le_of_lt hp)) h2
      · rw [if_neg hy]
        have hxv := hleft x h0 (le_of_lt hx)
        have hyv := (hright y (le_of_not_lt hy) hy1).1
        linarith
    · have hxh : 1 / 2 ≤ x := le_of_not_lt hx
      rw [if_neg hx, if_neg (by linarith : ¬ y < 1 / 2)]
      have hb0 : (0 : ℝ) ≤ -2 * y + 2 := by linarith
      have hmono : (-2 * y + 2) ^ p ≤ (-2 * x + 2) ^ p :=
        Real.rpow_le_rpow hb0 (by linarith) (le_of_lt hp)
      linarith

/-- Helper: `easeInSine` satisfies the easing contract. -/
theorem easeWellBehaved_easeInSine : easeWellBehaved easeInSine := by
  have hπ : (0 : ℝ) < Real.pi := Real.pi_pos
  unfold easeWellBehaved easeInSine
  refine ⟨?_, ?_, ?_, ?_⟩
  · rw [zero_mul, zero_div, Real.cos_zero, sub_self]
  · rw [one_mul, Real.cos_pi_div_two, sub_zero]
  · intro x h0 h1
    have ha0 : 0 ≤ x * Real.pi / 2 := by positivity
    have ha1 : x * Real.pi / 2 ≤ Real.pi / 2 := by nlinarith
    have hc1 : Real.cos (x * Real.pi / 2) ≤ 1 := Real.cos_le_one _
    have hc0 : 0 ≤ Real.cos (x * Real.pi / 2) :=
      Real.cos_nonneg_of_mem_Icc ⟨by linarith, ha1⟩
    constructor <;> linarith
  · intro x y h0 hxy hy1
    have ha0 : 0 ≤ x * Real.pi / 2 := by positivity
    have hb1 : y * Real.pi / 2 ≤ Real.pi := by nlinarith
    have hab : x * Real.pi / 2 ≤ y * Real.pi / 2 := by nlinarith
    have := Real.cos_le_cos_of_nonneg_of_le_pi ha0 hb1 hab
    linarith

/-- Helper: `easeOutSine` satisfies the easing contract. -/
theorem easeWellBehaved_easeOutSine : easeWellBehaved easeOutSine := by
  have hπ : (0 : ℝ) < Real.pi := Real.pi_pos
  unfold easeWellBehaved easeOutSine
  refine ⟨?_, ?_, ?_, ?_⟩
  · rw [zero_mul, zero_div, Real.sin_zero]
  · rw [one_mul, Real.sin_pi_div_two]
  · intro x h0 h1
    have ha0 : 0 ≤ x * Real.pi / 2 := by positivity
    have ha1 : x * Real.pi / 2 ≤ Real.pi := by nlinarith
    exact ⟨Real.sin_nonneg_of_nonneg_of_le_pi ha0 ha1, Real.sin_le_one _⟩
  · intro x y h0 hxy hy1
    have hx0 : 0 ≤ x * Real.pi / 2 := by positivity
    have hyU : y * Real.pi / 2 ≤ Real.pi / 2 := by nlinarith
    have hxU : x * Real.pi / 2 ≤ Real.pi / 2 := by nlinarith
    have hy0 : 0 ≤ y * Real.pi / 2 :=
      div_nonneg (mul_nonneg (le_trans h0 hxy) (le_of_lt hπ)) (by norm_num)
    have hab : x * Real.pi / 2 ≤ y * Real.pi / 2 := by nlinarith
    exact Real.strictMonoOn_sin.monotoneOn ⟨by linarith, hxU⟩ ⟨by linarith, hyU⟩ hab

/-- Helper: `easeInOutSine` satisfies the easing contract. -/
theorem easeWellBehaved_easeInOutSine : easeWellBehaved easeInOutSine := by
  have hπ : (0 : ℝ) < Real.pi := Real.pi_pos
  unfold easeWellBehaved easeInOutSine
  refine ⟨?_, ?_, ?_, ?_⟩
  · rw [mul_zero, Real.cos_zero, sub_self, neg_zero, zero_div]
  · rw [mul_one, Real.cos_pi]
    norm_num
  · intro x h0 h1
    have hc1 : Real.cos (Real.pi * x) ≤ 1 := Real.cos_le_one _
    have hc0 : -1 ≤ Real.cos (Real.pi * x) := Real.neg_one_le_cos _
    constructor <;> linarith
  · intro x y h0 hxy hy1
    have ha0 : 0 ≤ Real.pi * x := mul_nonneg (le_of_lt hπ) h0
    have hb1 : Real.pi * y ≤ Real.pi := by nlinarith
    have hab : Real.pi * x ≤ Real.pi * y := by nlinarith
    have := Real.cos_le_cos_of_nonneg_of_le_pi ha0 hb1 hab
    linarith

/-- Helper: the quadratic end-ramp expression of
`linear_with_in_out_ease` simplifies to `x² / (2d)`. -/
theorem lwioe_val (d x : ℝ) (hd : d ≠ 0) :
    (x * (1 / d)) ^ 2 / (1 / d) / 2 = x ^ 2 / (2 * d) := by
  field_simp
  ring

/-- Helper: first branch of `linear_with_in_out_ease` (`x < ease_duration`). -/
theorem lwioe_branch_lt (d x : ℝ) (hx : x < d) :
    linear_with_in_out_ease d x = (x * (1 / d)) ^ 2 / (1 / d) / 2 := by
  simp only [linear_with_in_out_ease]
  rw [if_pos hx]

/-- Helper: second branch of `linear_with_in_out_ease`
(`x > 1 - ease_duration`). -/
theorem lwioe_branch_gt (d x : ℝ) (hx1 : ¬ x < d) (hx2 : 1 - d < x) :
    linear_with_in_out_ease d x = 1 - ((1 - x) * (1 / d)) ^ 2 / (1 / d) / 2 := by
  simp only [linear_with_in_out_ease]
  rw [if_neg hx1, if_pos hx2]

/-- Helper: middle (linear) branch of `linear_with_in_out_ease`. -/
theorem lwioe_branch_mid (d x : ℝ) (hx1 : ¬ x < d) (hx2 : ¬ 1 - d < x) :
    linear_with_in_out_ease d x =
      (x - d) * (1 - d) / (1 - 2 * d) + d / 2 := by
  simp only [linear_with_in_out_ease]
  rw [if_neg hx1, if_neg hx2]

/-- Helper: `linear_with_in_out_ease` satisfies the easing contract for
every ease-duration fraction strictly between 0 and 1/2. The three
branches have the ordered value ranges `[0, d/2]`, `[d/2, 1 - d/2]` and
`[1 - d/2, 1]`, are each monotone, and agree at the joints. -/
theorem easeWellBehaved_linear_with_in_out_ease (d : ℝ) (hd0 : 0 < d) (hdh : d < 1 / 2) :
    easeWellBehaved (linear_with_in_out_ease d) := by
  have hdne : d ≠ 0 := ne_of_gt hd0
  have h2d : (0 : ℝ) < 2 * d := by linarith
  have h12d : (0 : ℝ) < 1 - 2 * d := by linarith
  have hA : ∀ x : ℝ, 0 ≤ x → x ≤ d → 0 ≤ x ^ 2 / (2 * d) ∧ x ^ 2 / (2 * d) ≤ d / 2 := by
    intro x h0 h1
    constructor
    · exact div_nonneg (sq_nonneg x) (le_of_lt h2d)
    · rw [div_le_div_iff₀ h2d (by norm_num : (0 : ℝ) < 2)]
      nlinarith
  have hM : ∀ x : ℝ, d ≤ x → x ≤ 1 - d →
      d / 2 ≤ (x - d) * (1 - d) / (1 - 2 * d) + d / 2 ∧
      (x - d) * (1 - d) / (1 - 2 * d) + d / 2 ≤ 1 - d / 2 := by
    intro x h0 h1
    have hnn : 0 ≤ (x - d) * (1 - d) / (1 - 2 * d) :=
      div_nonneg (mul_nonneg (by linarith) (by linarith)) (le_of_lt h12d)
    have hub : (x - d) * (1 - d) / (1 - 2 * d) ≤ 1 - d := by
      rw [div_le_iff₀ h12d]
      nlinarith
    constructor <;> linarith
  have hB : ∀ x : ℝ, 1 - d ≤ x → x ≤ 1 →
      1 - d / 2 ≤ 1 - (1 - x) ^ 2 / (2 * d) ∧ 1 - (1 - x) ^ 2 / (2 * d) ≤ 1 := by
    intro x h0 h1
    have hnn : 0 ≤ (1 - x) ^ 2 / (2 * d) := div_nonneg (sq_nonneg _) (le_of_lt h2d)
    have hub : (1 - x) ^ 2 / (2 * d) ≤ d / 2 := by
      rw [div_le_div_iff₀ h2d (by norm_num : (0 : ℝ) < 2)]
      nlinarith
    constructor <;> linarith
  unfold easeWellBehaved
  refine ⟨?_, ?_, ?_, ?_⟩
  · rw [lwioe_branch_lt d 0 hd0]
    norm_num
  · rw [lwioe_branch_gt d 1 (by linarith) (by linarith)]
    norm_num
  · intro x h0 h1
    by_cases hxl : x < d
    · rw [lwioe_branch_lt d x hxl, lwioe_val d x hdne]
      have := hA x h0 (le_of_lt hxl)
      constructor <;> linarith [this.1, this.2]
    · by_cases hxr : 1 - d < x
      · rw [lwioe_branch_gt d x hxl hxr, lwioe_val d (1 - x) hdne]
        have := hB x (le_of_lt hxr) h1
        constructor <;> linarith [this.1, this.2]
      · rw [lwioe_branch_mid d x hxl hxr]
        have := hM x (le_of_not_lt hxl) (le_of_not_lt hxr)
        constructor <;> linarith [this.1, this.2]
  · intro x y h0 hxy hy1
    by_cases hxl : x < d
    · rw [lwioe_branch_lt d x hxl, lwioe_val d x hdne]
      by_cases hyl : y < d
      · rw [lwioe_branch_lt d y hyl, lwioe_val d y hdne]
        exact (div_le_div_iff_of_pos_right h2d).mpr (by nlinarith)
      · by_cases hyr : 1 - d < y
        · rw [lwioe_branch_gt d y hyl hyr, lwioe_val d (1 - y) hdne]
          have hxv := (hA x h0 (le_of_lt hxl)).2
          have hyv := (hB y (le_of_lt hyr) hy1).1
          linarith
        · rw [lwioe_branch_mid d y hyl hyr]
          have hxv := (hA x h0 (le_of_lt hxl)).2
          have hyv := (hM y (le_of_not_lt hyl) (le_of_not_lt hyr)).1
          linarith
    · have hxd : d ≤ x := le_of_not_lt hxl
      have hyl : ¬ y < d := not_lt.mpr (le_trans hxd hxy)
      by_cases hxr : 1 - d < x
      · have hyr : 1 - d < y := lt_of_lt_of_le hxr hxy
        rw [lwioe_branch_gt d x hxl hxr, lwioe_val d (1 - x) hdne,
          lwioe_branch_gt d y hyl hyr, lwioe_val d (1 - y) hdne]
        have : (1 - y) ^ 2 ≤ (1 - x) ^ 2 := by nlinarith
        have := (div_le_div_iff_of_pos_right h2d).mpr this
        linarith
      · rw [lwioe_branch_mid d x hxl hxr]
        by_cases hyr : 1 - d < y
        · rw [lwioe_branch_gt d y hyl hyr, lwioe_val d (1 - y) hdne]
          have hxv := (hM x hxd (le_of_not_lt hxr)).2
          have hyv := (hB y (le_of_lt hyr) hy1).1
          linarith
        · rw [lwioe_branch_mid d y hyl hyr]
          have hstep : (x - d) * (1 - d) ≤ (y - d) * (1 - d) :=
            mul_le_mul_of_nonneg_right (by linarith) (by linarith)
          have := (div_le_div_iff_of_pos_right h12d).mpr hstep
          linarith

/-- C4: every supported easing variant — linear, the sine/quad/cubic
in/out/in-out table entries, the power-parametrized family with positive
exponent, and the linear-with-eased-ends variant with ease-duration
fraction in (0, 1/2) — maps `[0,1]` into `[0,1]`, fixes 0 and 1, and is
monotone non-decreasing on `[0,1]`. -/
theorem easing_contract (k : EasingKind) (power ease_duration : ℝ)
    (h : easingParamsOk k power ease_duration) :
    easeWellBehaved (easingFunction k power ease_duration) := by
  cases k with
  | linear => exact easeWellBehaved_id
  | linearWithInOutEase =>
      exact easeWellBehaved_linear_with_in_out_ease ease_duration h.1 h.2
  | easeInSine => exact easeWellBehaved_easeInSine
  | easeOutSine => exact easeWellBehaved_easeOutSine
  | easeInOutSine => exact easeWellBehaved_easeInOutSine
  | easeInQuad => exact easeWellBehaved_pow_in 2 (by norm_num)
  | easeOutQuad => exact easeWellBehaved_pow_out 2 (by norm_num)
  | easeInOutQuad => exact easeWellBehaved_pow_in_out 2 (by norm_num)
  | easeInCubic => exact easeWellBehaved_pow_in 3 (by norm_num)
  | easeOutCubic => exact easeWellBehaved_pow_out 3 (by norm_num)
  | easeInOutCubic => exact easeWellBehaved_pow_in_out 3 (by norm_num)
  | easeInPow => exact easeWellBehaved_pow_in power h
  | easeOutPow => exact easeWellBehaved_pow_out power h
  | easeInOutPow => exact easeWellBehaved_pow_in_out power h

/-- Witness for C4 at the parametrized kinds: the power family at
exponent 3/2 (the shipped default `DEFAULT_EASING_POWER = 1.5`) and the
eased-ends variant at fraction 1/50 (`DEFAULT_EASE_DURATION = 0.02`). -/
theorem easing_contract_witness :
    (easingParamsOk EasingKind.easeInPow (3 / 2) (1 / 50) ∧
      easeWellBehaved (easingFunction EasingKind.easeInPow (3 / 2) (1 / 50))) ∧
    (easingParamsOk EasingKind.linearWithInOutEase (3 / 2) (1 / 50) ∧
      easeWellBehaved (easingFunction EasingKind.linearWithInOutEase (3 / 2) (1 / 50))) :=
  ⟨⟨by norm_num [easingParamsOk],
    easing_contract EasingKind.easeInPow (3 / 2) (1 / 50) (by norm_num [easingParamsOk])⟩,
   ⟨by norm_num [easingParamsOk],
    easing_contract EasingKind.linearWithInOutEase (3 / 2) (1 / 50)
      (by norm_num [easingParamsOk])⟩⟩

/-- Helper: `zoom_in_log` stays in `[0, num_images]` when the easing maps
`[0,1]` into `[0,1]`, the frame index is in range, and there are at least
two frames. -/
theorem zoom_in_log_bounds (ease : ℝ → ℝ)
    (hease : ∀ t : ℝ, 0 ≤ t → t ≤ 1 → 0 ≤ ease t ∧ ease t ≤ 1)
    (i F num : ℕ) (hi : i < F) (hF : 2 ≤ F) :
    0 ≤ zoom_in_log ease i F num ∧ zoom_in_log ease i F num ≤ (num : ℝ) := by
  have hFr : (2 : ℝ) ≤ (F : ℝ) := by exact_mod_cast hF
  have hden : (0 : ℝ) < (F : ℝ) - 1 := by linarith
  have ht0 : 0 ≤ (i : ℝ) / ((F : ℝ) - 1) := div_nonneg (Nat.cast_nonneg i) (le_of_lt hden)
  have hi1 : ((i : ℝ) + 1) ≤ (F : ℝ) := by exact_mod_cast Nat.succ_le_of_lt hi
  have ht1 : (i : ℝ) / ((F : ℝ) - 1) ≤ 1 := by
    rw [div_le_one hden]
    linarith
  obtain ⟨he0, he1⟩ := hease _ ht0 ht1
  unfold zoom_in_log
  constructor
  · exact mul_nonneg he0 (Nat.cast_nonneg num)
  · calc ease ((i : ℝ) / ((F : ℝ) - 1)) * (num : ℝ)
        ≤ 1 * (num : ℝ) := mul_le_mul_of_nonneg_right he1 (Nat.cast_nonneg num)
    _ = (num : ℝ) := one_mul _

/-- Helper: `zoom_out_log` stays in `[0, num_images]` under the same
hypotheses as `zoom_in_log_bounds`. -/
theorem zoom_out_log_bounds (ease : ℝ → ℝ)
    (hease : ∀ t : ℝ, 0 ≤ t → t ≤ 1 → 0 ≤ ease t ∧ ease t ≤ 1)
    (i F num : ℕ) (hi : i < F) (hF : 2 ≤ F) :
    0 ≤ zoom_out_log ease i F num ∧ zoom_out_log ease i F num ≤ (num : ℝ) := by
  have hFr : (2 : ℝ) ≤ (F : ℝ) := by exact_mod_cast hF
  have hden : (0 : ℝ) < (F : ℝ) - 1 := by linarith
  have ht0 : 0 ≤ (i : ℝ) / ((F : ℝ) - 1) := div_nonneg (Nat.cast_nonneg i) (le_of_lt hden)
  have hi1 : ((i : ℝ) + 1) ≤ (F : ℝ) := by exact_mod_cast Nat.succ_le_of_lt hi
  have ht1 : (i : ℝ) / ((F : ℝ) - 1) ≤ 1 := by
    rw [div_le_one hden]
    linarith
  obtain ⟨he0, he1⟩ := hease _ ht0 ht1
  unfold zoom_out_log
  constructor
  · exact mul_nonneg (by linarith) (Nat.cast_nonneg num)
  · calc (1 - ease ((i : ℝ) / ((F : ℝ) - 1))) * (num : ℝ)
        ≤ 1 * (num : ℝ) := mul_le_mul_of_nonneg_right (by linarith) (Nat.cast_nonneg num)
    _ = (num : ℝ) := one_mul _

/-- Helper: for `0 ≤ L ≤ num_images` and `zoom > 1`, the layer index
`⌈L⌉` lies in `[0, num_images]` and the local zoom
`zoom ^ (L - ⌈L⌉ + 1)` lies in `(1, zoom]`. -/
theorem layer_local_bounds (zoom L : ℝ) (num : ℕ) (hz : 1 < zoom)
    (h0 : 0 ≤ L) (h1 : L ≤ (num : ℝ)) :
    0 ≤ layerIndex L ∧ layerIndex L ≤ (num : ℤ) ∧
    1 < localZoom zoom L ∧ localZoom zoom L ≤ zoom := by
  have hc0 : 0 ≤ ⌈L⌉ := Int.ceil_nonneg h0
  have hc1 : ⌈L⌉ ≤ (num : ℤ) := by
    rw [Int.ceil_le]
    exact_mod_cast h1
  have hup : L ≤ (⌈L⌉ : ℝ) := Int.le_ceil L
  have hlo : (⌈L⌉ : ℝ) < L + 1 := Int.ceil_lt_add_one L
  have hz0 : (0 : ℝ) < zoom := lt_trans one_pos hz
  refine ⟨hc0, hc1, ?_, ?_⟩
  · unfold localZoom
    exact (Real.one_lt_rpow_iff_of_pos hz0).mpr (Or.inl ⟨hz, by linarith⟩)
  · unfold localZoom
    calc zoom ^ (L - (⌈L⌉ : ℝ) + 1)
        ≤ zoom ^ (1 : ℝ) := Real.rpow_le_rpow_of_exponent_le (le_of_lt hz) (by linarith)
    _ = zoom := Real.rpow_one zoom

/-- Helper: the `Except`-valued dispatch agrees with the total one on the
four supported direction names. -/
theorem current_zoom_log_ok (direction : String) (ease : ℝ → ℝ)
    (i F H num : ℕ)
    (h : direction = ("in") ∨ direction = ("out") ∨
      direction = ("inout") ∨ direction = ("outin")) :
    current_zoom_log direction ease i F H num =
      Except.ok (zoomLogPure direction ease i F H num) := by
  rcases h with h | h | h | h <;> subst h <;> rfl

/-- Helper: the continuous zoom log stays in `[0, num_images]` for every
valid direction/frame-count combination. -/
theorem zoomLogPure_bounds (direction : String) (ease : ℝ → ℝ)
    (i F H num : ℕ)
    (hease : ∀ t : ℝ, 0 ≤ t → t ≤ 1 → 0 ≤ ease t ∧ ease t ≤ 1)
    (hi : i < F)
    (hvalid : ((direction = ("in") ∨ direction = ("out")) ∧ 2 ≤ F) ∨
      ((direction = ("inout") ∨ direction = ("outin")) ∧ 2 ≤ H ∧ F = 2 * H)) :
    0 ≤ zoomLogPure direction ease i F H num ∧
      zoomLogPure direction ease i F H num ≤ (num : ℝ) := by
  rcases hvalid with ⟨hdir | hdir, hF⟩ | ⟨hdir | hdir, hH, hFH⟩ <;> subst hdir
  · unfold zoomLogPure
    rw [if_pos rfl]
    exact zoom_in_log_bounds ease hease i F num hi hF
  · unfold zoomLogPure
    rw [if_neg (by decide), if_pos rfl]
    exact zoom_out_log_bounds ease hease i F num hi hF
  · unfold zoomLogPure
    rw [if_neg (by decide), if_neg (by decide), if_pos rfl]
    by_cases hih : i < H
    · rw [if_pos hih]
      exact zoom_in_log_bounds ease hease i H num hih hH
    · rw [if_neg hih]
      have hiH : i - H < H := by omega
      exact zoom_out_log_bounds ease hease (i - H) H num hiH hH
  · unfold zoomLogPure
    rw [if_neg (by decide), if_neg (by decide), if_neg (by decide), if_pos rfl]
    by_cases hih : i < H
    · rw [if_pos hih]
      exact zoom_out_log_bounds ease hease i H num hih hH
    · rw [if_neg hih]
      have hiH : i - H < H := by omega
      exact zoom_in_log_bounds ease hease (i - H) H num hiH hH

/-- Counterexample for C1, two parts. (1) Interval: with the supported
input zoom = 2, linear easing, 2 images (`num_images = 1`), `F = 2`,
direction `in`, frame `i = 1`, the sampler's zoom log is `L = 1` and
`local_zoom = 2 ^ (L - ceil(L) + 1) = 2`, which does not lie in
`(1/2, 1]`. (2) Layer range: with direction `outin`, linear easing,
2 images, `F = 11` (odd), `H = 5`, frame `i = 10`, the dispatch evaluates
the easing at `5/4 > 1` and yields `L = 5/4`, whose layer index
`ceil(5/4) = 2` is outside `[0, N-1] = [0, 1]`. -/
theorem frame_sampler_ranges_counterexample :
    (zoom_in_log id 1 2 1 = 1 ∧
     localZoom 2 (zoom_in_log id 1 2 1) = 2 ∧
     ¬ ((1 / 2 : ℝ) < localZoom 2 (zoom_in_log id 1 2 1) ∧
        localZoom 2 (zoom_in_log id 1 2 1) ≤ 1)) ∧
    (current_zoom_log ("outin") id 10 11 5 1 = Except.ok (zoom_in_log id 5 5 1) ∧
     zoom_in_log id 5 5 1 = 5 / 4 ∧
     layerIndex (zoom_in_log id 5 5 1) = 2 ∧
     ¬ layerIndex (zoom_in_log id 5 5 1) ≤ (1 : ℤ)) := by
  have hL1 : zoom_in_log id 1 2 1 = 1 := by
    unfold zoom_in_log
    norm_num
  have hL2 : zoom_in_log id 5 5 1 = 5 / 4 := by
    unfold zoom_in_log
    norm_num
  have hlz : localZoom 2 (zoom_in_log id 1 2 1) = 2 := by
    rw [hL1]
    unfold localZoom
    rw [Int.ceil_one]
    have hexp : (1 : ℝ) - ((1 : ℤ) : ℝ) + 1 = 1 := by norm_num
    rw [hexp, Real.rpow_one]
  have hceil : layerIndex (zoom_in_log id 5 5 1) = 2 := by
    rw [hL2]
    unfold layerIndex
    rw [Int.ceil_eq_iff]
    norm_num
  refine ⟨⟨hL1, hlz, ?_⟩, ⟨?_, hL2, hceil, ?_⟩⟩
  · rw [hlz]
    intro hc
    linarith [hc.2]
  · rfl
  · rw [hceil]
    decide

/-- C1 (amended): for every valid input combination whose direction and
frame count do not force easing extrapolation (direction `in`/`out` with
any `F ≥ 2`, or `inout`/`outin` with even `F = 2H`, `H ≥ 2`), the sampler
computes `layer_index = ceil(L)` and
`local_zoom = zoom_ratio ** (L - layer_index + 1)`, `layer_index` lies in
`[0, N-1]`, and `local_zoom` lies in the half-open interval
`(1, zoom_ratio]` — in particular every frame index, including `i = 0`
and `i = F-1`, selects a definite in-range layer. -/
theorem frame_sampler_ranges (direction : String) (ease : ℝ → ℝ) (zoom : ℝ)
    (i F H num : ℕ)
    (hz : 1 < zoom)
    (hease : ∀ t : ℝ, 0 ≤ t → t ≤ 1 → 0 ≤ ease t ∧ ease t ≤ 1)
    (hi : i < F)
    (hvalid : ((direction = ("in") ∨ direction = ("out")) ∧ 2 ≤ F) ∨
      ((direction = ("inout") ∨ direction = ("outin")) ∧ 2 ≤ H ∧ F = 2 * H)) :
    current_zoom_log direction ease i F H num =
      Except.ok (zoomLogPure direction ease i F H num) ∧
    0 ≤ layerIndex (zoomLogPure direction ease i F H num) ∧
    layerIndex (zoomLogPure direction ease i F H num) ≤ (num : ℤ) ∧
    1 < localZoom zoom (zoomLogPure direction ease i F H num) ∧
    localZoom zoom (zoomLogPure direction ease i F H num) ≤ zoom := by
  have hdir : direction = ("in") ∨ direction = ("out") ∨
      direction = ("inout") ∨ direction = ("outin") := by
    rcases hvalid with ⟨h | h, _⟩ | ⟨h | h, _, _⟩
    · exact Or.inl h
    · exact Or.inr (Or.inl h)
    · exact Or.inr (Or.inr (Or.inl h))
    · exact Or.inr (Or.inr (Or.inr h))
  obtain ⟨hb0, hb1⟩ := zoomLogPure_bounds direction ease i F H num hease hi hvalid
  obtain ⟨hl0, hl1, hz1, hz2⟩ :=
    layer_local_bounds zoom (zoomLogPure direction ease i F H num) num hz hb0 hb1
  exact ⟨current_zoom_log_ok direction ease i F H num hdir, hl0, hl1, hz1, hz2⟩

/-- Witness for C1 with direction `in`, linear easing, zoom 2, two
images, four frames, at the last frame index. -/
theorem frame_sampler_ranges_witness :
    ((1 : ℝ) < 2 ∧ 3 < 4) ∧
    (current_zoom_log ("in") id 3 4 2 1 =
      Except.ok (zoomLogPure ("in") id 3 4 2 1) ∧
    0 ≤ layerIndex (zoomLogPure ("in") id 3 4 2 1) ∧
    layerIndex (zoomLogPure ("in") id 3 4 2 1) ≤ (1 : ℤ) ∧
    1 < localZoom 2 (zoomLogPure ("in") id 3 4 2 1) ∧
    localZoom 2 (zoomLogPure ("in") id 3 4 2 1) ≤ 2) :=
  ⟨⟨by norm_num, by decide⟩,
   frame_sampler_ranges ("in") id 2 3 4 2 1 (by norm_num)
     (fun t h0 h1 => ⟨h0, h1⟩) (by decide) (Or.inl ⟨Or.inl rfl, by decide⟩)⟩

/-- C7: every direction name outside {in, out, inout, outin} makes the
per-frame routine fail with the `Unsupported direction` error before it
reaches the save step, for every frame index — so no frame file is
written for the whole job. -/
theorem unsupported_direction_fails (direction : String) (ease : ℝ → ℝ) (zoom : ℝ)
    (i F H num : ℕ)
    (h : ¬ direction ∈ [("in"), ("out"), ("inout"), ("outin")]) :
    process_frame direction ease zoom i F H num =
      Except.error (("Unsupported direction: ") ++ direction) ∧
    frameWrites direction ease zoom F H num = [] := by
  simp only [List.mem_cons, List.not_mem_nil, or_false, not_or] at h
  obtain ⟨h1, h2, h3, h4⟩ := h
  have herr : ∀ j : ℕ, current_zoom_log direction ease j F H num =
      Except.error (("Unsupported direction: ") ++ direction) := by
    intro j
    unfold current_zoom_log
    rw [if_neg h1, if_neg h2, if_neg h3, if_neg h4]
  have hpf : ∀ j : ℕ, process_frame direction ease zoom j F H num =
      Except.error (("Unsupported direction: ") ++ direction) := by
    intro j
    unfold process_frame
    rw [herr j]
  refine ⟨hpf i, ?_⟩
  unfold frameWrites
  refine List.filterMap_eq_nil_iff.mpr ?_
  intro a _
  rw [hpf a]

/-- Witness for C7 at the unsupported direction name `sideways`. -/
theorem unsupported_direction_fails_witness :
    (¬ ("sideways") ∈ [("in"), ("out"), ("inout"), ("outin")]) ∧
    (process_frame ("sideways") id 2 0 30 15 2 =
      Except.error (("Unsupported direction: ") ++ ("sideways")) ∧
    frameWrites ("sideways") id 2 30 15 2 = []) :=
  ⟨by decide, unsupported_direction_fails ("sideways") id 2 0 30 15 2 (by decide)⟩

/-- Counterexample for C5: with the shipped default easing
`easeInOutSine` — which satisfies the easing contract (monotone on
`[0,1]`, fixing 0 and 1) — direction `inout`, `F = 11` frames
(`H = 11/2 = 5`) and three images (`num_images = 2`), the sampled layer
sequence is not unimodal with its extremum at `F/2`: both `i = 9` and
`i = 10` lie in the falling half `[H, F)`, yet the layer index rises
from 0 back to 1, because frame 10 evaluates the easing at
`(10-5)/(5-1) = 5/4`, past the domain on which it is monotone. -/
theorem layer_sequence_shape_counterexample :
    easeWellBehaved easeInOutSine ∧
    (11 : ℕ) / 2 = 5 ∧
    layerIndex (zoomLogPure ("inout") easeInOutSine 9 11 5 2) = 0 ∧
    layerIndex (zoomLogPure ("inout") easeInOutSine 10 11 5 2) = 1 ∧
    ¬ (layerIndex (zoomLogPure ("inout") easeInOutSine 10 11 5 2) ≤
       layerIndex (zoomLogPure ("inout") easeInOutSine 9 11 5 2)) := by
  have h9 : zoomLogPure ("inout") easeInOutSine 9 11 5 2 =
      zoom_out_log easeInOutSine 4 5 2 := rfl
  have h10 : zoomLogPure ("inout") easeInOutSine 10 11 5 2 =
      zoom_out_log easeInOutSine 5 5 2 := rfl
  have hsq := Real.sq_sqrt (show (0 : ℝ) ≤ 2 by norm_num)
  have hnn := Real.sqrt_nonneg 2
  have hL9 : zoom_out_log easeInOutSine 4 5 2 = 0 := by
    unfold zoom_out_log easeInOutSine
    have harg : ((4 : ℕ) : ℝ) / (((5 : ℕ) : ℝ) - 1) = 1 := by norm_num
    rw [harg, mul_one, Real.cos_pi]
    norm_num
  have hL10 : zoom_out_log easeInOutSine 5 5 2 = 1 - Real.sqrt 2 / 2 := by
    unfold zoom_out_log easeInOutSine
    have harg : ((5 : ℕ) : ℝ) / (((5 : ℕ) : ℝ) - 1) = 5 / 4 := by norm_num
    rw [harg]
    have hpi : Real.pi * (5 / 4) = Real.pi + Real.pi / 4 := by ring
    rw [hpi, Real.cos_add, Real.cos_pi, Real.sin_pi, Real.cos_pi_div_four]
    push_cast
    ring
  have hc9 : layerIndex (zoomLogPure ("inout") easeInOutSine 9 11 5 2) = 0 := by
    rw [h9, hL9]
    unfold layerIndex
    exact Int.ceil_zero
  have hc10 : layerIndex (zoomLogPure ("inout") easeInOutSine 10 11 5 2) = 1 := by
    rw [h10, hL10]
    unfold layerIndex
    have hlt : Real.sqrt 2 < 2 := by nlinarith [sq_nonneg (Real.sqrt 2 - 2)]
    rw [Int.ceil_eq_iff]
    constructor
    · push_cast
      nlinarith
    · push_cast
      nlinarith
  refine ⟨easeWellBehaved_easeInOutSine, rfl, hc9, hc10, ?_⟩
  rw [hc9, hc10]
  decide

/-- C5 (amended): for every easing that is monotone non-decreasing on
`[0,1]` and fixes 0 and 1, the sampled layer-index sequence is
non-decreasing over `[0, F)` for direction `in` (any `F ≥ 2`) and
non-increasing for direction `out`; for `inout`/`outin` the sequence is
unimodal with its extremum at the half count `H = F/2` whenever the
frame count is even (`F = 2H`, `F ≥ 4`): rising on `[0, H]` then falling
on `[H, F)` for `inout`, and falling then rising for `outin`. (For odd
`F` the trailing frames evaluate the easing beyond 1, outside the
contract's monotone domain, and unimodality can fail.) -/
theorem layer_sequence_shape (ease : ℝ → ℝ)
    (hm : ∀ x y : ℝ, 0 ≤ x → x ≤ y → y ≤ 1 → ease x ≤ ease y)
    (h0 : ease 0 = 0) (h1 : ease 1 = 1) (F num : ℕ) :
    (2 ≤ F → ∀ i j : ℕ, i ≤ j → j < F →
      layerIndex (zoomLogPure ("in") ease i F (F / 2) num) ≤
        layerIndex (zoomLogPure ("in") ease j F (F / 2) num)) ∧
    (2 ≤ F → ∀ i j : ℕ, i ≤ j → j < F →
      layerIndex (zoomLogPure ("out") ease j F (F / 2) num) ≤
        layerIndex (zoomLogPure ("out") ease i F (F / 2) num)) ∧
    (4 ≤ F → F = 2 * (F / 2) → ∀ i j : ℕ, i ≤ j → j ≤ F / 2 →
      layerIndex (zoomLogPure ("inout") ease i F (F / 2) num) ≤
        layerIndex (zoomLogPure ("inout") ease j F (F / 2) num)) ∧
    (4 ≤ F → F = 2 * (F / 2) → ∀ i j : ℕ, F / 2 ≤ i → i ≤ j → j < F →
      layerIndex (zoomLogPure ("inout") ease j F (F / 2) num) ≤
        layerIndex (zoomLogPure ("inout") ease i F (F / 2) num)) ∧
    (4 ≤ F → F = 2 * (F / 2) → ∀ i j : ℕ, i ≤ j → j ≤ F / 2 →
      layerIndex (zoomLogPure ("outin") ease j F (F / 2) num) ≤
        layerIndex (zoomLogPure ("outin") ease i F (F / 2) num)) ∧
    (4 ≤ F → F = 2 * (F / 2) → ∀ i j : ℕ, F / 2 ≤ i → i ≤ j → j < F →
      layerIndex (zoomLogPure ("outin") ease i F (F / 2) num) ≤
        layerIndex (zoomLogPure ("outin") ease j F (F / 2) num)) := by
  have hceil : ∀ a b : ℝ, a ≤ b → layerIndex a ≤ layerIndex b := by
    intro a b hab
    unfold layerIndex
    exact Int.ceil_le_ceil hab
  have harg0 : ∀ (Fm i : ℕ), 2 ≤ Fm → 0 ≤ (i : ℝ) / ((Fm : ℝ) - 1) := by
    intro Fm i hFm
    have hFr : (2 : ℝ) ≤ (Fm : ℝ) := by exact_mod_cast hFm
    exact div_nonneg (Nat.cast_nonneg i) (by linarith)
  have hargle : ∀ (Fm i j : ℕ), 2 ≤ Fm → i ≤ j →
      (i : ℝ) / ((Fm : ℝ) - 1) ≤ (j : ℝ) / ((Fm : ℝ) - 1) := by
    intro Fm i j hFm hij
    have hFr : (2 : ℝ) ≤ (Fm : ℝ) := by exact_mod_cast hFm
    have hden : (0 : ℝ) < (Fm : ℝ) - 1 := by linarith
    exact (div_le_div_iff_of_pos_right hden).mpr (by exact_mod_cast hij)
  have hargone : ∀ (Fm i : ℕ), 2 ≤ Fm → i < Fm → (i : ℝ) / ((Fm : ℝ) - 1) ≤ 1 := by
    intro Fm i hFm hi
    have hFr : (2 : ℝ) ≤ (Fm : ℝ) := by exact_mod_cast hFm
    have hden : (0 : ℝ) < (Fm : ℝ) - 1 := by linarith
    rw [div_le_one hden]
    have : ((i : ℝ) + 1) ≤ (Fm : ℝ) := by exact_mod_cast Nat.succ_le_of_lt hi
    linarith
  have hmono_in : ∀ (Fm : ℕ), 2 ≤ Fm → ∀ i j : ℕ, i ≤ j → j < Fm →
      zoom_in_log ease i Fm num ≤ zoom_in_log ease j Fm num := by
    intro Fm hFm i j hij hj
    unfold zoom_in_log
    exact mul_le_mul_of_nonneg_right
      (hm _ _ (harg0 Fm i hFm) (hargle Fm i j hFm hij) (hargone Fm j hFm hj))
      (Nat.cast_nonneg num)
  have hmono_out : ∀ (Fm : ℕ), 2 ≤ Fm → ∀ i j : ℕ, i ≤ j → j < Fm →
      zoom_out_log ease j Fm num ≤ zoom_out_log ease i Fm num := by
    intro Fm hFm i j hij hj
    unfold zoom_out_log
    have := hm _ _ (harg0 Fm i hFm) (hargle Fm i j hFm hij) (hargone Fm j hFm hj)
    exact mul_le_mul_of_nonneg_right (by linarith) (Nat.cast_nonneg num)
  have hin_le : ∀ (Fm i : ℕ), 2 ≤ Fm → i < Fm →
      zoom_in_log ease i Fm num ≤ (num : ℝ) := by
    intro Fm i hFm hi
    have hle1 : ease ((i : ℝ) / ((Fm : ℝ) - 1)) ≤ 1 := by
      have := hm _ 1 (harg0 Fm i hFm) (hargone Fm i hFm hi) le_rfl
      rw [h1] at this
      exact this
    unfold zoom_in_log
    calc ease ((i : ℝ) / ((Fm : ℝ) - 1)) * (num : ℝ)
        ≤ 1 * (num : ℝ) := mul_le_mul_of_nonneg_right hle1 (Nat.cast_nonneg num)
    _ = (num : ℝ) := one_mul _
  have hout_ge : ∀ (Fm i : ℕ), 2 ≤ Fm → i < Fm →
      0 ≤ zoom_out_log ease i Fm num := by
    intro Fm i hFm hi
    have hle1 : ease ((i : ℝ) / ((Fm : ℝ) - 1)) ≤ 1 := by
      have := hm _ 1 (harg0 Fm i hFm) (hargone Fm i hFm hi) le_rfl
      rw [h1] at this
      exact this
    unfold zoom_out_log
    exact mul_nonneg (by linarith) (Nat.cast_nonneg num)
  have hout_zero : ∀ Fm : ℕ, zoom_out_log ease 0 Fm num = (num : ℝ) := by
    intro Fm
    simp [zoom_out_log, h0]
  have hin_zero : ∀ Fm : ℕ, zoom_in_log ease 0 Fm num = 0 := by
    intro Fm
    simp [zoom_in_log, h0]
  have hdio : ∀ i : ℕ, zoomLogPure ("inout") ease i F (F / 2) num =
      if i < F / 2 then zoom_in_log ease i (F / 2) num
      else zoom_out_log ease (i - F / 2) (F / 2) num := fun _ => rfl
  have hdoi : ∀ i : ℕ, zoomLogPure ("outin") ease i F (F / 2) num =
      if i < F / 2 then zoom_out_log ease i (F / 2) num
      else zoom_in_log ease (i - F / 2) (F / 2) num := fun _ => rfl
  refine ⟨?_, ?_, ?_, ?_, ?_, ?_⟩
  · intro hF i j hij hjF
    exact hceil _ _ (hmono_in F hF i j hij hjF)
  · intro hF i j hij hjF
    exact hceil _ _ (hmono_out F hF i j hij hjF)
  · intro hF heven i j hij hjH
    have hH2 : 2 ≤ F / 2 := by omega
    rw [hdio i, hdio j]
    rcases Nat.lt_or_ge j (F / 2) with hjlt | hjge
    · rw [if_pos hjlt, if_pos (lt_of_le_of_lt hij hjlt)]
      exact hceil _ _ (hmono_in (F / 2) hH2 i j hij hjlt)
    · have hjeq : j = F / 2 := Nat.le_antisymm hjH hjge
      have hjn : ¬ j < F / 2 := by omega
      rw [if_neg hjn]
      rcases Nat.lt_or_ge i (F / 2) with hilt | hige
      · rw [if_pos hilt]
        apply hceil
        rw [hjeq, Nat.sub_self, hout_zero]
        exact hin_le (F / 2) i hH2 hilt
      · have hin2 : ¬ i < F / 2 := by omega
        rw [if_neg hin2]
        apply hceil
        have hieq : i = F / 2 := by omega
        rw [hieq, hjeq]
  · intro hF heven i j hHi hij hjF
    have hH2 : 2 ≤ F / 2 := by omega
    have hin2 : ¬ i < F / 2 := by omega
    have hjn : ¬ j < F / 2 := by omega
    rw [hdio i, hdio j, if_neg hin2, if_neg hjn]
    exact hceil _ _ (hmono_out (F / 2) hH2 (i - F / 2) (j - F / 2) (by omega) (by omega))
  · intro hF heven i j hij hjH
    have hH2 : 2 ≤ F / 2 := by omega
    rw [hdoi i, hdoi j]
    rcases Nat.lt_or_ge j (F / 2) with hjlt | hjge
    · rw [if_pos hjlt, if_pos (lt_of_le_of_lt hij hjlt)]
      exact hceil _ _ (hmono_out (F / 2) hH2 i j hij hjlt)
    · have hjeq : j = F / 2 := Nat.le_antisymm hjH hjge
      have hjn : ¬ j < F / 2 := by omega
      rw [if_neg hjn]
      rcases Nat.lt_or_ge i (F / 2) with hilt | hige
      · rw [if_pos hilt]
        apply hceil
        rw [hjeq, Nat.sub_self, hin_zero]
        exact hout_ge (F / 2) i hH2 hilt
      · have hin2 : ¬ i < F / 2 := by omega
        rw [if_neg hin2]
        apply hceil
        have hieq : i = F / 2 := by omega
        rw [hieq, hjeq]
  · intro hF heven i j hHi hij hjF
    have hH2 : 2 ≤ F / 2 := by omega
    have hin2 : ¬ i < F / 2 := by omega
    have hjn : ¬ j < F / 2 := by omega
    rw [hdoi i, hdoi j, if_neg hin2, if_neg hjn]
    exact hceil _ _ (hmono_in (F / 2) hH2 (i - F / 2) (j - F / 2) (by omega) (by omega))

/-- Witness for C5 with the linear easing at the even frame count
`F = 4`, `num_images = 1`. -/
theorem layer_sequence_shape_witness :
    ((∀ x y : ℝ, 0 ≤ x → x ≤ y → y ≤ 1 → id x ≤ id y) ∧
      id (0 : ℝ) = 0 ∧ id (1 : ℝ) = 1) ∧
    ((2 ≤ 4 → ∀ i j : ℕ, i ≤ j → j < 4 →
      layerIndex (zoomLogPure ("in") id i 4 (4 / 2) 1) ≤
        layerIndex (zoomLogPure ("in") id j 4 (4 / 2) 1)) ∧
    (2 ≤ 4 → ∀ i j : ℕ, i ≤ j → j < 4 →
      layerIndex (zoomLogPure ("out") id j 4 (4 / 2) 1) ≤
        layerIndex (zoomLogPure ("out") id i 4 (4 / 2) 1)) ∧
    (4 ≤ 4 → 4 = 2 * (4 / 2) → ∀ i j : ℕ, i ≤ j → j ≤ 4 / 2 →
      layerIndex (zoomLogPure ("inout") id i 4 (4 / 2) 1) ≤
        layerIndex (zoomLogPure ("inout") id j 4 (4 / 2) 1)) ∧
    (4 ≤ 4 → 4 = 2 * (4 / 2) → ∀ i j : ℕ, 4 / 2 ≤ i → i ≤ j → j < 4 →
      layerIndex (zoomLogPure ("inout") id j 4 (4 / 2) 1) ≤
        layerIndex (zoomLogPure ("inout") id i 4 (4 / 2) 1)) ∧
    (4 ≤ 4 → 4 = 2 * (4 / 2) → ∀ i j : ℕ, i ≤ j → j ≤ 4 / 2 →
      layerIndex (zoomLogPure ("outin") id j 4 (4 / 2) 1) ≤
        layerIndex (zoomLogPure ("outin") id i 4 (4 / 2) 1)) ∧
    (4 ≤ 4 → 4 = 2 * (4 / 2) → ∀ i j : ℕ, 4 / 2 ≤ i → i ≤ j → j < 4 →
      layerIndex (zoomLogPure ("outin") id i 4 (4 / 2) 1) ≤
        layerIndex (zoomLogPure ("outin") id j 4 (4 / 2) 1))) :=
  ⟨⟨fun _ _ _ hxy _ => hxy, rfl, rfl⟩,
   layer_sequence_shape id (fun _ _ _ hxy _ => hxy) rfl rfl 4 1⟩

end ZVC
